import Mathlib

/-
Shallow embedding of the AI phone agent reference implementation found in
src/backend/services/ai_phone_agent/AI_PHONE_AGENT.md (Python sources
audio.py, stt.py, llm.py, tts.py, orchestrator.py, server.py quoted there).

Modelling conventions:
* Python strings are modelled as `List Char`; `bytes` as `List Nat`
  (one entry per byte, values taken mod 256 where it matters).
* Fallible library calls are modelled with `Except`.
* Async callbacks are modelled by returning the list of texts delivered to
  the callback, in order.
-/

namespace PhoneAgent

/-! ### Python string helpers -/

/-- Python `str.strip()`: remove leading and trailing whitespace. -/
def trim (l : List Char) : List Char :=
  ((l.dropWhile Char.isWhitespace).reverse.dropWhile Char.isWhitespace).reverse

/-- All non-whitespace characters of a string, in order (used to state that
chunking loses nothing but whitespace at chunk edges). -/
def removeWS (l : List Char) : List Char :=
  l.filter (fun c => !c.isWhitespace)

/-- Python `sep in buffer` for a single character `sep`. -/
def hasChar : List Char → Char → Bool
  | [], _ => false
  | c :: rest, sep => c == sep || hasChar rest sep

/-- Python `needle in hay` for strings (contiguous substring test). -/
def containsSub (needle : List Char) : List Char → Bool
  | [] => needle.isEmpty
  | c :: rest => needle.isPrefixOf (c :: rest) || containsSub needle (c :: rest).tail

/-- Helper for Python `str.split()` (split on whitespace runs, dropping empty
words); `acc` holds the current word reversed. -/
def pywordsAux : List Char → List Char → List (List Char)
  | [], acc => if acc = [] then [] else [acc.reverse]
  | c :: rest, acc =>
    if c.isWhitespace then
      if acc = [] then pywordsAux rest [] else acc.reverse :: pywordsAux rest []
    else pywordsAux rest (c :: acc)

/-- Python `str.split()` with no separator argument. -/
def pywords (l : List Char) : List (List Char) :=
  pywordsAux l []

/-! ### llm.py — ConversationEngine -/

/-- `ConversationEngine.get_opening` (llm.py): the deterministic opening line
template.  The source does `callee_name.split()[0]`, which raises on a
whitespace-only name; in this total embedding the result is an `Option` and
the out-of-bounds access is the `none` branch. -/
def get_opening (callee_name agent_name org : List Char) : Option (List Char) :=
  match pywords callee_name with
  | [] => none
  | first_name :: _ =>
    some ("Hi ".data ++ first_name ++ ", this is ".data ++ agent_name
      ++ " calling from ".data ++ org ++ ". Do you have a quick moment?".data)

/-- From the spec's words (§6): the opening line template
"Hi {firstNameOf(calleeName)}, this is {agentName} calling from
{organization}. Do you have a quick moment?". -/
def openingTemplate (first agent org : List Char) : List Char :=
  "Hi ".data ++ first ++ ", this is ".data ++ agent
    ++ " calling from ".data ++ org ++ ". Do you have a quick moment?".data

/-- The sentence-boundary separators of `ConversationEngine.stream_response`
(llm.py), in the order the source iterates over them. -/
def seps : List Char := ['.', '!', '?', ',', ';']

/-- One token of `stream_response`'s token loop (llm.py): append the token to
the buffer; if any separator occurs in the buffer, split at the first
occurrence of the first such separator (`buffer.split(sep, 1)`), emit
`(parts[0] + sep).strip()`, and keep `parts[1]` as the new buffer.  Returns
the new buffer and the emitted chunk, if any. -/
def streamStep (buf tok : List Char) : List Char × Option (List Char) :=
  let b := buf ++ tok
  match seps.find? (fun sep => hasChar b sep) with
  | none => (b, none)
  | some sep =>
    let pre := b.takeWhile (fun x => x != sep)
    let post := (b.dropWhile (fun x => x != sep)).tail
    (post, some (trim (pre ++ [sep])))

/-- The token loop plus the end-of-stream flush of `stream_response`
(llm.py): `if buffer.strip(): await on_sentence(buffer.strip())`.
Returns the chunks delivered to `on_sentence`, in order. -/
def streamRun (buf : List Char) : List (List Char) → List (List Char)
  | [] => if trim buf = [] then [] else [trim buf]
  | tok :: toks =>
    match streamStep buf tok with
    | (b, none) => streamRun b toks
    | (b, some s) => s :: streamRun b toks

/-- All chunks `stream_response` delivers to `on_sentence` for a given
streamed token sequence. -/
def streamChunks (tokens : List (List Char)) : List (List Char) :=
  streamRun [] tokens

/-- From the claim's words: a chunk is emitted at each sentence-boundary
punctuation mark (so the text up to and including each mark, trimmed), with
the trimmed remainder flushed at end-of-stream.  Depends only on the
concatenated token stream. -/
def everyMarkAux : List Char → List Char → List (List Char)
  | [], buf => if trim buf = [] then [] else [trim buf]
  | c :: rest, buf =>
    if hasChar seps c then trim (buf ++ [c]) :: everyMarkAux rest []
    else everyMarkAux rest (buf ++ [c])

/-- From the claim's words: the chunk sequence obtained by emitting at every
separator occurrence of the full response text. -/
def chunksAtEveryMark (s : List Char) : List (List Char) :=
  everyMarkAux s []

/-- Whether a chunk ends at a sentence-boundary separator. -/
def endsWithSep (l : List Char) : Bool :=
  (l.getLast?.map (hasChar seps)).getD false

/-! ### stt.py — StreamingSTT -/

/-- One parsed Deepgram message as consumed by `StreamingSTT._listen`
(stt.py): a `Results` message carrying a transcript and its `is_final` flag,
an `UtteranceEnd` message, or any other message type (ignored). -/
inductive STTMsg where
  | results (transcript : List Char) (is_final : Bool)
  | utteranceEnd
  | other
deriving DecidableEq

/-- One iteration of `StreamingSTT._listen` (stt.py).  State is
`self._current_text`.  On a final, nonempty transcript the source does
`self._current_text += " " + transcript`; on `UtteranceEnd` it strips the
accumulated text, clears the buffer, and delivers the text to the callback
only if it is nonempty.  Returns the new buffer and the delivered text, if
any. -/
def sttStep (cur : List Char) (m : STTMsg) : List Char × Option (List Char) :=
  match m with
  | .results transcript is_final =>
    if transcript ≠ [] ∧ is_final = true then (cur ++ ' ' :: transcript, none)
    else (cur, none)
  | .utteranceEnd =>
    let text := trim cur
    ([], if text = [] then none else some text)
  | .other => (cur, none)

/-- The `_listen` receive loop (stt.py), returning the texts delivered to
`on_utterance_end`, in order. -/
def sttRun (cur : List Char) : List STTMsg → List (List Char)
  | [] => []
  | m :: ms =>
    match sttStep cur m with
    | (c, none) => sttRun c ms
    | (c, some t) => t :: sttRun c ms

/-- The texts `StreamingSTT` delivers for a full message sequence. -/
def sttDelivered (msgs : List STTMsg) : List (List Char) :=
  sttRun [] msgs

/-- From the claim's words: exactly one callback per utterance-boundary
signal, with text equal to the in-order concatenation of the final results
accumulated since the previous boundary, trimmed. -/
def claimSTTRun (cur : List Char) : List STTMsg → List (List Char)
  | [] => []
  | m :: ms =>
    match m with
    | .results transcript true => claimSTTRun (cur ++ transcript) ms
    | .results _ false => claimSTTRun cur ms
    | .utteranceEnd => trim cur :: claimSTTRun [] ms
    | .other => claimSTTRun cur ms

/-- The texts the claim, read literally, says are delivered. -/
def claimSTTDelivered (msgs : List STTMsg) : List (List Char) :=
  claimSTTRun [] msgs

/-- Join a list of words with single spaces (used by the amended statement
of the utterance-delivery claim). -/
def spaceJoin : List (List Char) → List Char
  | [] => []
  | [t] => t
  | t :: ts => t ++ ' ' :: spaceJoin ts

/-- Amended behaviour, stated over the list of nonempty final transcripts
accumulated since the previous boundary: a boundary delivers the trimmed
single-space-separated join of those transcripts, and delivers nothing when
that text is empty. -/
def amendedSTTRun (fins : List (List Char)) : List STTMsg → List (List Char)
  | [] => []
  | m :: ms =>
    match m with
    | .results transcript true =>
      if transcript ≠ [] then amendedSTTRun (fins ++ [transcript]) ms
      else amendedSTTRun fins ms
    | .results _ false => amendedSTTRun fins ms
    | .utteranceEnd =>
      let text := trim (spaceJoin fins)
      if text = [] then amendedSTTRun [] ms else text :: amendedSTTRun [] ms
    | .other => amendedSTTRun fins ms

/-- The texts delivered according to the amended claim. -/
def amendedSTTDelivered (msgs : List STTMsg) : List (List Char) :=
  amendedSTTRun [] msgs

/-! ### orchestrator.py — CallSession -/

/-- The goodbye vocabulary of `CallSession._is_goodbye` (orchestrator.py). -/
def goodbye_signals : List (List Char) :=
  ["goodbye".data, "bye".data, "have a great day".data,
   "take care".data, "talk soon".data]

/-- `CallSession._is_goodbye` (orchestrator.py):
`any(s in text.lower() for s in signals)`. -/
def is_goodbye (text : List Char) : Bool :=
  goodbye_signals.any (fun s => containsSub s (text.map Char.toLower))

/-- The session state mutated by `CallSession._on_callee_done_speaking`
(orchestrator.py): the `is_active` and `is_speaking` flags. -/
structure OrchState where
  is_active : Bool
  is_speaking : Bool
deriving DecidableEq

/-- Result of one invocation of `self.llm.stream_response(...)`: either the
full response text, or a raised `anthropic` API error. -/
inductive LLMOutcome where
  | ok (response : List Char)
  | err
deriving DecidableEq

/-- Observable actions of `_on_callee_done_speaking` (orchestrator.py), in
program order: opening the per-utterance TTS connection, invoking
`llm.stream_response`, flushing and closing the TTS connection, calling
`self.end()`, and an uncaught exception propagating out of the handler. -/
inductive Effect where
  | ttsConnect
  | llmCall
  | ttsFlush
  | ttsClose
  | endCall
  | raised
deriving DecidableEq

/-- `CallSession._on_callee_done_speaking` (orchestrator.py, lines 389-421).
`oracle n` is the outcome of the `(n+1)`-st invocation of
`llm.stream_response` for this utterance; the source invokes it exactly once
(`oracle 0`) with no exception handler, so on `err` the exception propagates
(`is_speaking` has been set and is never reset, `end()` is not reached).
On success the handler flushes and closes the TTS connection, resets
`is_speaking`, and calls `end()` (which sets `is_active := False`) iff
`_is_goodbye(response)`. -/
def on_callee_done_speaking (st : OrchState) (oracle : Nat → LLMOutcome) :
    OrchState × List Effect :=
  if st.is_active = false then (st, [])
  else
    match oracle 0 with
    | .err =>
      ({ st with is_speaking := true }, [.ttsConnect, .llmCall, .raised])
    | .ok response =>
      if is_goodbye response then
        ({ is_active := false, is_speaking := false },
         [.ttsConnect, .llmCall, .ttsFlush, .ttsClose, .endCall])
      else
        ({ st with is_speaking := false },
         [.ttsConnect, .llmCall, .ttsFlush, .ttsClose])

/-- From the claim's words: on a language-model failure the call is retried
once (`oracle 1`), and if the retry also fails the call is ended gracefully
via `end()`. -/
def on_callee_done_claimed (st : OrchState) (oracle : Nat → LLMOutcome) :
    OrchState × List Effect :=
  if st.is_active = false then (st, [])
  else
    let finish (response : List Char) (pre : List Effect) :
        OrchState × List Effect :=
      if is_goodbye response then
        ({ is_active := false, is_speaking := false },
         pre ++ [.ttsFlush, .ttsClose, .endCall])
      else
        ({ st with is_speaking := false }, pre ++ [.ttsFlush, .ttsClose])
    match oracle 0 with
    | .ok response => finish response [.ttsConnect, .llmCall]
    | .err =>
      match oracle 1 with
      | .ok response => finish response [.ttsConnect, .llmCall, .llmCall]
      | .err =>
        ({ is_active := false, is_speaking := false },
         [.ttsConnect, .llmCall, .llmCall, .endCall])

/-! ### server.py — session registry and media stream entry point -/

/-- A call specification dict as stored in `pending_calls` (server.py).
`agent_name` and `organization` are optional because the fallback dict in
`media_stream` omits them and `CallSession.start` reads them with
`spec.get(key, default)`. -/
structure CallSpec where
  action : List Char
  context : List Char
  callee_name : List Char
  agent_name : Option (List Char)
  organization : Option (List Char)
deriving DecidableEq

/-- The process-wide `pending_calls` mapping (server.py), modelled as an
association list. -/
abbrev Registry := List (List Char × CallSpec)

/-- Python `pending_calls.get(call_spec_id)` as an association-list
lookup. -/
def regLookup : Registry → List Char → Option CallSpec
  | [], _ => none
  | (k, v) :: rest, id => if k = id then some v else regLookup rest id

/-- The fallback spec used by `media_stream` (server.py) when
`call_spec_id` is not registered. -/
def defaultSpec : CallSpec :=
  { action := "No action specified".data
    context := "No context provided".data
    callee_name := "there".data
    agent_name := none
    organization := none }

/-- The `start`-event branch of `media_stream` (server.py, lines 534-546):
`spec = pending_calls.get(call_spec_id, {...default...})`.  `dict.get` does
not mutate the dict, so the registry is returned unchanged. -/
def media_stream_start (reg : Registry) (id : List Char) : CallSpec × Registry :=
  ((regLookup reg id).getD defaultSpec, reg)

/-- Remove every entry with the given key from the registry. -/
def removeKey : Registry → List Char → Registry
  | [], _ => []
  | (k, v) :: rest, id =>
    if k = id then removeKey rest id else (k, v) :: removeKey rest id

/-- From the claim's words: the media-stream start event claims the
specification and evicts the entry from the registry. -/
def media_stream_start_claimed (reg : Registry) (id : List Char) :
    CallSpec × Registry :=
  ((regLookup reg id).getD defaultSpec, removeKey reg id)

/-- The opening line `CallSession.start` (orchestrator.py, lines 379-383)
computes for a spec: `get_opening(callee_name, spec.get("agent_name",
"Alex"), spec.get("organization", "our office"))`. -/
def session_opening (spec : CallSpec) : Option (List Char) :=
  get_opening spec.callee_name (spec.agent_name.getD "Alex".data)
    (spec.organization.getD "our office".data)

/-! ### audio.py — codec adapter -/

/-- The error CPython's `audioop` module raises when a fragment length is
not a whole number of sample frames. -/
inductive DecodeError where
  | notWholeFrames
deriving DecidableEq

/-- Group a byte string into 16-bit frames (pairs of bytes); assumes even
length, as enforced by the callers. -/
def toFrames : List Nat → List (Nat × Nat)
  | [] => []
  | [_] => []
  | b0 :: b1 :: rest => (b0, b1) :: toFrames rest

/-- The μ-law segment/mantissa encoding of CPython's `st_14linear2ulaw`
(Modules/audioop.c), applied to the biased, clipped magnitude `v` with the
sign mask `mask` (0xFF for non-negative samples, 0x7F for negative). -/
def st14core (v0 : Nat) (mask : Nat) : Nat :=
  let v := min v0 8159 + 33
  if v > 0x1FFF then 0x7F ^^^ mask
  else
    let seg :=
      if v ≤ 0x3F then 0 else if v ≤ 0x7F then 1 else if v ≤ 0xFF then 2
      else if v ≤ 0x1FF then 3 else if v ≤ 0x3FF then 4
      else if v ≤ 0x7FF then 5 else if v ≤ 0xFFF then 6 else 7
    ((seg <<< 4) ||| ((v >>> (seg + 1)) &&& 0xF)) ^^^ mask

/-- One 16-bit little-endian frame to one μ-law byte, as in CPython
`audioop.lin2ulaw` with width 2: the signed sample is arithmetically shifted
right by 2 and fed to `st_14linear2ulaw`. -/
def mulawByte (b0 b1 : Nat) : Nat :=
  let u := b0 % 256 + 256 * (b1 % 256)
  if u < 32768 then st14core (u / 4) 0xFF
  else st14core ((65536 - u + 3) / 4) 0x7F

/-- CPython `audioop.lin2ulaw(fragment, 2)`: raises when the fragment is not
a whole number of 2-byte frames, otherwise yields one μ-law byte per
frame. -/
def lin2ulaw (bs : List Nat) : Except DecodeError (List Nat) :=
  if bs.length % 2 = 0 then
    .ok ((toFrames bs).map (fun p => mulawByte p.1 p.2))
  else .error .notWholeFrames

/-- `pcm_to_mulaw` (audio.py): `return audioop.lin2ulaw(pcm_data, 2)`. -/
def pcm_to_mulaw (pcm_data : List Nat) : Except DecodeError (List Nat) :=
  lin2ulaw pcm_data

/-- Decode a 16-bit little-endian frame as a signed sample. -/
def frameToSample (p : Nat × Nat) : Int :=
  let u := p.1 % 256 + 256 * (p.2 % 256)
  if u < 32768 then (u : Int) else (u : Int) - 65536

/-- One input sample of CPython `audioop.ratecv`'s conversion loop after the
rates 24000/8000 are reduced by their gcd to inrate 3, outrate 1 (state
`None` starts at `d = -outrate`, prev = cur = 0).  Each input sample does
`d += outrate`; while `d >= 0` one output sample
`(prev*d + cur*(outrate-d)) / outrate` is produced and `d -= inrate`.  With
outrate 1 every emission happens at `d = 0`, where the C double arithmetic
is exact, so integer arithmetic is faithful. -/
def resampleStep (st : Int × Int × Int) (s : Int) :
    (Int × Int × Int) × Option Int :=
  let d := st.1 + 1
  let prev := st.2.2
  let cur := s
  if 0 ≤ d then ((d - 3, prev, cur), some ((prev * d + cur * (1 - d)) / 1))
  else ((d, prev, cur), none)

/-- The `ratecv` loop over all input samples. -/
def resampleRun (st : Int × Int × Int) : List Int → List Int
  | [] => []
  | s :: ss =>
    match resampleStep st s with
    | (st2, none) => resampleRun st2 ss
    | (st2, some o) => o :: resampleRun st2 ss

/-- Re-encode output samples as 16-bit little-endian bytes. -/
def samplesToBytes (ss : List Int) : List Nat :=
  (ss.map (fun v =>
    let u := (v % 65536).toNat
    [u % 256, u / 256])).flatten

/-- CPython `audioop.ratecv(fragment, 2, 1, 24000, 8000, None)[0]`: raises
when the fragment is not a whole number of frames, otherwise resamples
24kHz to 8kHz. -/
def ratecv_24k_8k (bs : List Nat) : Except DecodeError (List Nat) :=
  if bs.length % 2 = 0 then
    .ok (samplesToBytes (resampleRun (-1, 0, 0) ((toFrames bs).map frameToSample)))
  else .error .notWholeFrames

/-- `elevenlabs_to_twilio` (audio.py):
`pcm_8k = audioop.ratecv(pcm_24k, 2, 1, 24000, 8000, None)[0]` followed by
`pcm_to_mulaw(pcm_8k)`. -/
def elevenlabs_to_twilio (pcm_24k : List Nat) : Except DecodeError (List Nat) := do
  let pcm_8k ← ratecv_24k_8k pcm_24k
  pcm_to_mulaw pcm_8k

/-! ### Concrete data for witnesses and counterexamples -/

/-- The registered specification of the spec's happy-path scenario (§8). -/
def happyPathSpec : CallSpec :=
  { action := "Confirm appointment Thursday 2pm".data
    context := "Suite 200".data
    callee_name := "John Smith".data
    agent_name := some "Alex".data
    organization := some "Downtown Dental".data }

/-- A one-entry registry holding the happy-path specification. -/
def happyPathReg : Registry := [("abc123".data, happyPathSpec)]

end PhoneAgent

/-! ## Theorems -/

namespace PhoneAgent

/-! ### Helper lemmas on Python string operations -/

theorem pywordsAux_eq_nil_iff (l : List Char) :
    ∀ acc, pywordsAux l acc = [] ↔ ((∀ c ∈ l, c.isWhitespace = true) ∧ acc = []) := by
  induction l with
  | nil =>
    intro acc
    by_cases h : acc = [] <;> simp [pywordsAux, h]
  | cons c rest ih =>
    intro acc
    cases hc : c.isWhitespace with
    | true =>
      by_cases h : acc = [] <;> simp [pywordsAux, hc, h, ih]
    | false =>
      simp [pywordsAux, hc, ih]

theorem removeWS_dropWhile (l : List Char) :
    removeWS (l.dropWhile Char.isWhitespace) = removeWS l := by
  induction l with
  | nil => rfl
  | cons c rest ih =>
    cases hc : c.isWhitespace with
    | true =>
      rw [List.dropWhile_cons]
      simp only [hc, if_true, removeWS, List.filter_cons, Bool.not_true,
        Bool.false_eq_true, if_false]
      exact ih
    | false =>
      rw [List.dropWhile_cons]
      simp [hc]

theorem removeWS_reverse (l : List Char) :
    removeWS l.reverse = (removeWS l).reverse := by
  simp [removeWS, List.filter_reverse]

theorem removeWS_trim (l : List Char) : removeWS (trim l) = removeWS l := by
  rw [trim, removeWS_reverse, removeWS_dropWhile, removeWS_reverse,
    List.reverse_reverse, removeWS_dropWhile]

theorem removeWS_of_trim_eq_nil {l : List Char} (h : trim l = []) :
    removeWS l = [] := by
  rw [← removeWS_trim, h]; rfl

theorem removeWS_append (l₁ l₂ : List Char) :
    removeWS (l₁ ++ l₂) = removeWS l₁ ++ removeWS l₂ := by
  simp [removeWS]

theorem hasChar_iff (l : List Char) (c : Char) : hasChar l c = true ↔ c ∈ l := by
  induction l with
  | nil => simp [hasChar]
  | cons a rest ih =>
    simp only [hasChar, Bool.or_eq_true, beq_iff_eq, ih, List.mem_cons]
    exact or_congr eq_comm Iff.rfl

theorem trim_cons_ws {c : Char} (hc : c.isWhitespace = true) (l : List Char) :
    trim (c :: l) = trim l := by
  simp [trim, List.dropWhile_cons, hc]

/-! ### C9 / C10: the opening line -/

/-- C9: for every calleeName with at least one whitespace-separated word,
`get_opening` deterministically returns exactly the template
"Hi {first word}, this is {agentName} calling from {organization}. Do you
have a quick moment?". -/
theorem opening_line_matches_template (name agent org first : List Char)
    (rest : List (List Char)) (h : pywords name = first :: rest) :
    get_opening name agent org = some (openingTemplate first agent org) := by
  simp [get_opening, h, openingTemplate]

theorem opening_line_matches_template_witness :
    pywords "John Smith".data = ["John".data, "Smith".data]
  ∧ get_opening "John Smith".data "Alex".data "Downtown Dental".data =
      some "Hi John, this is Alex calling from Downtown Dental. Do you have a quick moment?".data :=
  ⟨by decide,
   (opening_line_matches_template "John Smith".data "Alex".data
      "Downtown Dental".data "John".data ["Smith".data] (by decide)).trans
     (by decide)⟩

/-- C10: `get_opening` is partial at the public interface — in this total
embedding the first-word lookup fails (returns `none`) exactly when the
callee name is empty or all-whitespace, i.e. the error branch is
unreachable exactly when the name contains a non-whitespace word. -/
theorem pywords_eq_nil_iff (l : List Char) :
    pywords l = [] ↔ ∀ c ∈ l, c.isWhitespace = true := by
  unfold pywords
  rw [pywordsAux_eq_nil_iff l []]
  exact ⟨fun h => h.1, fun h => ⟨h, rfl⟩⟩

theorem opening_line_partiality (name agent org : List Char) :
    get_opening name agent org = none ↔ ∀ c ∈ name, c.isWhitespace = true := by
  rw [← pywords_eq_nil_iff]
  cases hp : pywords name <;> simp [get_opening, hp]

/-! ### C2 / C7: session registry and media-stream start -/

/-- C2 counterexample: the media-stream start handler looks the entry up
with `dict.get`, which does not evict it — the registry after the claim
still holds the entry, contradicting the claimed consumed-once eviction. -/
theorem registry_not_evicted_counterexample :
    media_stream_start happyPathReg "abc123".data
      ≠ media_stream_start_claimed happyPathReg "abc123".data
  ∧ (media_stream_start happyPathReg "abc123".data).2 = happyPathReg := by
  constructor
  · decide
  · rfl

/-- C2 amended: the start event reads the registry entry without removing
it; the entry survives the claim and a second start event with the same
callSetupId receives the same CallSpecification. -/
theorem registry_read_not_consumed (reg : Registry) (id : List Char)
    (spec : CallSpec) (h : regLookup reg id = some spec) :
    (media_stream_start reg id).1 = spec
  ∧ (media_stream_start reg id).2 = reg
  ∧ (media_stream_start (media_stream_start reg id).2 id).1 = spec := by
  simp [media_stream_start, h]

theorem registry_read_not_consumed_witness :
    (media_stream_start happyPathReg "abc123".data).1 = happyPathSpec
  ∧ (media_stream_start happyPathReg "abc123".data).2 = happyPathReg
  ∧ (media_stream_start (media_stream_start happyPathReg "abc123".data).2
      "abc123".data).1 = happyPathSpec :=
  registry_read_not_consumed happyPathReg "abc123".data happyPathSpec (by decide)

/-- C7: a media `start` event whose callSetupId has no registered
specification falls back to the default specification and still produces
the valid generic opening line. -/
theorem missing_registration_fallback (reg : Registry) (id : List Char)
    (h : regLookup reg id = none) :
    (media_stream_start reg id).1 = defaultSpec
  ∧ session_opening (media_stream_start reg id).1 =
      some "Hi there, this is Alex calling from our office. Do you have a quick moment?".data := by
  constructor
  · simp [media_stream_start, h]
  · simp only [media_stream_start, h, Option.getD_none]
    decide

/-! ### C3: sentence-chunked streaming -/

theorem removeWS_nil : removeWS [] = [] := rfl

theorem removeWS_cons (c : Char) (l : List Char) :
    removeWS (c :: l) = (if c.isWhitespace then [] else [c]) ++ removeWS l := by
  by_cases hc : c.isWhitespace = true <;>
    simp [removeWS, List.filter_cons, hc]

theorem append_regroup {α : Type} (p q r w u v : List α)
    (h : p ++ (q ++ r) = u ++ v) :
    (p ++ q) ++ (r ++ w) = u ++ (v ++ w) := by
  have h2 : (p ++ (q ++ r)) ++ w = (u ++ v) ++ w := by rw [h]
  simpa [List.append_assoc] using h2

theorem split_decomposition (sep : Char) :
    ∀ l : List Char, sep ∈ l →
      l.takeWhile (fun x => x != sep) ++ sep :: (l.dropWhile (fun x => x != sep)).tail = l := by
  intro l
  induction l with
  | nil => intro h; cases h
  | cons c r ih =>
    intro hmem
    by_cases hc : c = sep
    · subst hc
      simp [List.takeWhile_cons, List.dropWhile_cons]
    · have hmem2 : sep ∈ r := by
        rcases List.mem_cons.mp hmem with h | h
        · exact absurd h.symm hc
        · exact h
      have hbne : (c != sep) = true := by simp [bne_iff_ne, hc]
      simp only [List.takeWhile_cons, List.dropWhile_cons, hbne, if_true,
        List.cons_append]
      rw [ih hmem2]

theorem dropWhile_ws_append_last {c : Char} (hc : c.isWhitespace = false) :
    ∀ x : List Char, ∃ y, (x ++ [c]).dropWhile Char.isWhitespace = y ++ [c] := by
  intro x
  induction x with
  | nil => exact ⟨[], by simp [List.dropWhile_cons, hc]⟩
  | cons a x ih =>
    by_cases ha : a.isWhitespace = true
    · obtain ⟨y, hy⟩ := ih
      exact ⟨y, by simp [List.dropWhile_cons, ha, hy]⟩
    · exact ⟨a :: x, by
        simp only [Bool.not_eq_true] at ha
        simp [List.dropWhile_cons, ha]⟩

theorem trim_append_last {c : Char} (hc : c.isWhitespace = false) (x : List Char) :
    ∃ y, trim (x ++ [c]) = y ++ [c] := by
  obtain ⟨y, hy⟩ := dropWhile_ws_append_last hc x
  exact ⟨y, by rw [trim, hy]; simp [List.dropWhile_cons, hc]⟩

theorem seps_not_whitespace : ∀ c ∈ seps, c.isWhitespace = false := by decide

theorem endsWithSep_trim_append {sep : Char} (hs : sep ∈ seps) (x : List Char) :
    endsWithSep (trim (x ++ [sep])) = true := by
  obtain ⟨y, hy⟩ := trim_append_last (seps_not_whitespace sep hs) x
  rw [hy]
  simp [endsWithSep, List.getLast?_concat, (hasChar_iff seps sep).mpr hs]

theorem streamStep_of_find_none {buf tok : List Char}
    (h : seps.find? (fun sep => hasChar (buf ++ tok) sep) = none) :
    streamStep buf tok = (buf ++ tok, none) := by
  simp [streamStep, h]

theorem streamStep_of_find_some {buf tok : List Char} {sep : Char}
    (h : seps.find? (fun sep => hasChar (buf ++ tok) sep) = some sep) :
    streamStep buf tok =
      (((buf ++ tok).dropWhile (fun x => x != sep)).tail,
       some (trim ((buf ++ tok).takeWhile (fun x => x != sep) ++ [sep]))) := by
  simp [streamStep, h]

theorem streamRun_cons_none (toks : List (List Char)) {buf tok b : List Char}
    (h : streamStep buf tok = (b, none)) :
    streamRun buf (tok :: toks) = streamRun b toks := by
  simp only [streamRun, h]

theorem streamRun_cons_some (toks : List (List Char)) {buf tok b s : List Char}
    (h : streamStep buf tok = (b, some s)) :
    streamRun buf (tok :: toks) = s :: streamRun b toks := by
  simp only [streamRun, h]

theorem streamRun_delivery (toks : List (List Char)) :
    ∀ buf, removeWS ((streamRun buf toks).flatten) = removeWS (buf ++ toks.flatten) := by
  induction toks with
  | nil =>
    intro buf
    show removeWS ((if trim buf = [] then ([] : List (List Char))
      else [trim buf]).flatten) = _
    by_cases h : trim buf = []
    · rw [if_pos h]
      show removeWS [] = removeWS (buf ++ [])
      rw [List.append_nil]
      exact (removeWS_of_trim_eq_nil h).symm
    · rw [if_neg h]
      show removeWS (trim buf ++ []) = removeWS (buf ++ [])
      rw [List.append_nil, List.append_nil, removeWS_trim]
  | cons t ts ih =>
    intro buf
    cases hf : seps.find? (fun sep => hasChar (buf ++ t) sep) with
    | none =>
      rw [streamRun_cons_none ts (streamStep_of_find_none hf), ih (buf ++ t),
        List.flatten_cons, ← List.append_assoc]
    | some sep =>
      have hmem : sep ∈ buf ++ t := (hasChar_iff _ _).mp (List.find?_some hf)
      have hdec := split_decomposition sep (buf ++ t) hmem
      rw [streamRun_cons_some ts (streamStep_of_find_some hf)]
      rw [List.flatten_cons, removeWS_append, removeWS_trim, ih]
      have hws := congrArg removeWS hdec
      simp only [removeWS_append, removeWS_cons, removeWS_nil,
        List.append_nil] at hws
      simp only [removeWS_append, removeWS_cons, removeWS_nil,
        List.append_nil, List.flatten_cons]
      exact append_regroup _ _ _ _ _ _ hws

theorem streamRun_chunks_end_at_sep (toks : List (List Char)) :
    ∀ buf, ((streamRun buf toks).dropLast).all endsWithSep = true := by
  induction toks with
  | nil =>
    intro buf
    show (((if trim buf = [] then ([] : List (List Char))
      else [trim buf])).dropLast).all _ = true
    by_cases h : trim buf = []
    · rw [if_pos h]; rfl
    · rw [if_neg h]; rfl
  | cons t ts ih =>
    intro buf
    cases hf : seps.find? (fun sep => hasChar (buf ++ t) sep) with
    | none =>
      rw [streamRun_cons_none ts (streamStep_of_find_none hf)]
      exact ih _
    | some sep =>
      have hsep : sep ∈ seps := List.mem_of_find?_eq_some hf
      rw [streamRun_cons_some ts (streamStep_of_find_some hf)]
      have hend := endsWithSep_trim_append hsep
        ((buf ++ t).takeWhile (fun x => x != sep))
      cases hr : streamRun (((buf ++ t).dropWhile (fun x => x != sep)).tail) ts with
      | nil => simp
      | cons a as =>
        have ihr := ih (((buf ++ t).dropWhile (fun x => x != sep)).tail)
        rw [hr] at ihr
        show ((trim ((buf ++ t).takeWhile (fun x => x != sep) ++ [sep])
          :: (a :: as).dropLast)).all endsWithSep = true
        rw [List.all_cons, hend, ihr]
        rfl

/-- C3 counterexample: on the token stream ["a,b."] the code emits the
single chunk "a,b." (splitting at the first occurrence of '.', the first
separator in its fixed priority list, and swallowing the comma), whereas
emitting a chunk at each boundary mark would yield ["a,", "b."]. -/
theorem chunking_counterexample :
    streamChunks ["a,b.".data] = ["a,b.".data]
  ∧ chunksAtEveryMark (["a,b.".data].flatten) = ["a,".data, "b.".data]
  ∧ streamChunks ["a,b.".data] ≠ chunksAtEveryMark (["a,b.".data].flatten) := by
  decide

/-- C3 amended: `stream_response` emits at most one chunk per token,
splitting the buffer at the first occurrence of the first separator (in the
fixed order '.', '!', '?', ',', ';') present in it, so a chunk may contain
further boundary marks internally; every delivered chunk except possibly the
end-of-stream flush ends at a separator, and the delivered chunks carry the
entire response in order, up to whitespace trimmed at chunk edges. -/
theorem chunking_amended (tokens : List (List Char)) :
    ((streamChunks tokens).dropLast).all endsWithSep = true
  ∧ removeWS ((streamChunks tokens).flatten) = removeWS tokens.flatten :=
  ⟨streamRun_chunks_end_at_sep tokens [],
   by simpa using streamRun_delivery tokens []⟩

/-! ### C8: codec whole-frame check -/

theorem toFrames_length :
    ∀ bs : List Nat, bs.length % 2 = 0 → 2 * (toFrames bs).length = bs.length
  | [] => fun _ => rfl
  | [_] => fun h => by simp at h
  | _ :: _ :: rest => fun h => by
    have hr : rest.length % 2 = 0 := by
      simp only [List.length_cons] at h
      omega
    have ih := toFrames_length rest hr
    simp only [toFrames, List.length_cons]
    omega

theorem samplesToBytes_length (ss : List Int) :
    (samplesToBytes ss).length = 2 * ss.length := by
  induction ss with
  | nil => rfl
  | cons s rest ih =>
    simp only [samplesToBytes, List.map_cons, List.flatten_cons,
      List.length_append, List.length_cons, List.length_nil] at ih ⊢
    omega

/-- C8: the codec functions fail with a DecodeError on any input whose
length is not a whole number of 16-bit frames (never silently truncating),
and succeed on every whole-frame input; `pcm_to_mulaw` produces exactly one
byte per input frame. -/
theorem codec_rejects_partial_frames (bs : List Nat) :
    (bs.length % 2 ≠ 0 →
      pcm_to_mulaw bs = Except.error DecodeError.notWholeFrames
      ∧ elevenlabs_to_twilio bs = Except.error DecodeError.notWholeFrames)
  ∧ (bs.length % 2 = 0 →
      (∃ out, pcm_to_mulaw bs = Except.ok out ∧ 2 * out.length = bs.length)
      ∧ ∃ out2, elevenlabs_to_twilio bs = Except.ok out2) := by
  constructor
  · intro h
    constructor
    · simp [pcm_to_mulaw, lin2ulaw, h]
    · simp [elevenlabs_to_twilio, ratecv_24k_8k, h, Bind.bind, Except.bind]
  · intro h
    refine ⟨⟨(toFrames bs).map (fun p => mulawByte p.1 p.2), ?_, ?_⟩, ?_⟩
    · simp [pcm_to_mulaw, lin2ulaw, h]
    · rw [List.length_map]
      exact toFrames_length bs h
    · have hv : (samplesToBytes
          (resampleRun (-1, 0, 0) ((toFrames bs).map frameToSample))).length % 2 = 0 := by
        rw [samplesToBytes_length]
        omega
      have hrc : ratecv_24k_8k bs =
          Except.ok (samplesToBytes (resampleRun (-1, 0, 0) ((toFrames bs).map frameToSample))) := by
        simp only [ratecv_24k_8k]
        rw [if_pos h]
      refine ⟨(toFrames (samplesToBytes (resampleRun (-1, 0, 0)
        ((toFrames bs).map frameToSample)))).map (fun p => mulawByte p.1 p.2), ?_⟩
      show (ratecv_24k_8k bs >>= fun pcm_8k => pcm_to_mulaw pcm_8k) = _
      rw [hrc]
      show pcm_to_mulaw _ = _
      simp only [pcm_to_mulaw, lin2ulaw]
      rw [if_pos hv]

theorem codec_rejects_partial_frames_witness :
    (pcm_to_mulaw [0] = Except.error DecodeError.notWholeFrames
      ∧ elevenlabs_to_twilio [0] = Except.error DecodeError.notWholeFrames)
  ∧ ((∃ out, pcm_to_mulaw [0, 0] = Except.ok out
        ∧ 2 * out.length = ([0, 0] : List Nat).length)
      ∧ ∃ out2, elevenlabs_to_twilio [0, 0] = Except.ok out2) :=
  ⟨(codec_rejects_partial_frames [0]).1 (by decide),
   (codec_rejects_partial_frames [0, 0]).2 (by decide)⟩

/-! ### C1 / C4 / C6: the utterance handler -/

/-- C1: `_on_callee_done_speaking` consults only `is_active`.  With
`is_active = true` and `is_speaking = true` the handler is not ignored — it
opens a TTS connection and invokes the language model, starting a second
response cycle while the session is still speaking; the event is ignored
only when the session is inactive. -/
theorem speaking_guard_not_consulted :
    (on_callee_done_speaking ⟨true, true⟩ (fun _ => .ok "Okay.".data)).2 =
      [Effect.ttsConnect, Effect.llmCall, Effect.ttsFlush, Effect.ttsClose]
  ∧ on_callee_done_speaking ⟨false, true⟩ (fun _ => .ok "Okay.".data) =
      (⟨false, true⟩, []) := by
  exact ⟨rfl, rfl⟩

/-- C4 counterexample: with an active session and a language model that
fails on every attempt, the handler invokes the model exactly once (no
retry), never reaches `end()`, and leaves the session active — unlike the
claimed retry-once-then-end behaviour. -/
theorem llm_failure_not_retried_counterexample :
    Effect.endCall ∉ (on_callee_done_speaking ⟨true, false⟩ (fun _ => .err)).2
  ∧ (on_callee_done_speaking ⟨true, false⟩ (fun _ => .err)).2.count Effect.llmCall = 1
  ∧ (on_callee_done_speaking ⟨true, false⟩ (fun _ => .err)).1.is_active = true
  ∧ on_callee_done_speaking ⟨true, false⟩ (fun _ => .err)
      ≠ on_callee_done_claimed ⟨true, false⟩ (fun _ => .err) := by
  decide

/-- C4 amended: a language-model failure is neither caught nor retried: the
model is invoked exactly once, `end()` is never called, the exception
propagates out of the handler, and the session is left active with
`is_speaking` stuck true. -/
theorem llm_failure_propagates (st : OrchState) (oracle : Nat → LLMOutcome)
    (hact : st.is_active = true) (hfail : oracle 0 = .err) :
    (on_callee_done_speaking st oracle).1.is_active = true
  ∧ (on_callee_done_speaking st oracle).1.is_speaking = true
  ∧ Effect.endCall ∉ (on_callee_done_speaking st oracle).2
  ∧ (on_callee_done_speaking st oracle).2.count Effect.llmCall = 1
  ∧ Effect.raised ∈ (on_callee_done_speaking st oracle).2 := by
  simp [on_callee_done_speaking, hact, hfail, List.count_cons]

theorem llm_failure_propagates_witness :
    (on_callee_done_speaking ⟨true, false⟩ (fun _ => .err)).1.is_active = true
  ∧ (on_callee_done_speaking ⟨true, false⟩ (fun _ => .err)).1.is_speaking = true
  ∧ Effect.endCall ∉ (on_callee_done_speaking ⟨true, false⟩ (fun _ => .err)).2
  ∧ (on_callee_done_speaking ⟨true, false⟩ (fun _ => .err)).2.count Effect.llmCall = 1
  ∧ Effect.raised ∈ (on_callee_done_speaking ⟨true, false⟩ (fun _ => .err)).2 :=
  llm_failure_propagates ⟨true, false⟩ (fun _ => .err) rfl rfl

/-- C6: after an agent turn with reply `resp`, the session calls `end()`
(transitioning to Ended, `is_active = false`) iff `_is_goodbye resp` — the
case-insensitive substring match against the closed goodbye vocabulary; a
reply matching no phrase leaves the session active. -/
theorem goodbye_detection (st : OrchState) (oracle : Nat → LLMOutcome)
    (resp : List Char) (hact : st.is_active = true)
    (hok : oracle 0 = .ok resp) :
    (is_goodbye resp = true →
      (on_callee_done_speaking st oracle).1.is_active = false
      ∧ Effect.endCall ∈ (on_callee_done_speaking st oracle).2)
  ∧ (is_goodbye resp = false →
      (on_callee_done_speaking st oracle).1.is_active = true
      ∧ Effect.endCall ∉ (on_callee_done_speaking st oracle).2) := by
  constructor
  · intro hg
    simp [on_callee_done_speaking, hact, hok, hg]
  · intro hg
    simp [on_callee_done_speaking, hact, hok, hg]

theorem goodbye_detection_witness :
    ((on_callee_done_speaking ⟨true, false⟩
        (fun _ => .ok "Alright, talk soon!".data)).1.is_active = false
      ∧ Effect.endCall ∈ (on_callee_done_speaking ⟨true, false⟩
          (fun _ => .ok "Alright, talk soon!".data)).2)
  ∧ ((on_callee_done_speaking ⟨true, false⟩
        (fun _ => .ok "Let me check that for you.".data)).1.is_active = true
      ∧ Effect.endCall ∉ (on_callee_done_speaking ⟨true, false⟩
          (fun _ => .ok "Let me check that for you.".data)).2) :=
  ⟨(goodbye_detection ⟨true, false⟩ (fun _ => .ok "Alright, talk soon!".data)
      "Alright, talk soon!".data rfl rfl).1 (by decide),
   (goodbye_detection ⟨true, false⟩ (fun _ => .ok "Let me check that for you.".data)
      "Let me check that for you.".data rfl rfl).2 (by decide)⟩

/-! ### C5: utterance delivery -/

/-- C5 counterexample: the recognizer joins final transcripts with spaces
(not plain concatenation) and delivers nothing on a boundary whose
accumulated text is empty, so the literal claim (exactly one delivery per
boundary, text = trimmed concatenation) fails. -/
theorem utterance_delivery_counterexample :
    sttDelivered [STTMsg.results "a".data true, STTMsg.results "b".data true,
        STTMsg.utteranceEnd, STTMsg.utteranceEnd] = ["a b".data]
  ∧ claimSTTDelivered [STTMsg.results "a".data true, STTMsg.results "b".data true,
        STTMsg.utteranceEnd, STTMsg.utteranceEnd] = ["ab".data, []]
  ∧ sttDelivered [STTMsg.results "a".data true, STTMsg.results "b".data true,
        STTMsg.utteranceEnd, STTMsg.utteranceEnd]
      ≠ claimSTTDelivered [STTMsg.results "a".data true, STTMsg.results "b".data true,
        STTMsg.utteranceEnd, STTMsg.utteranceEnd] := by
  decide

theorem spaceJoin_shift (f : List Char) (rest : List (List Char)) :
    ((f :: rest).map (fun t => ' ' :: t)).flatten = ' ' :: spaceJoin (f :: rest) := by
  induction rest generalizing f with
  | nil => simp [spaceJoin]
  | cons g rs ih =>
    show (' ' :: f) ++ ((g :: rs).map (fun t => ' ' :: t)).flatten
        = ' ' :: (f ++ ' ' :: spaceJoin (g :: rs))
    rw [ih g]
    simp

theorem trim_flatten_spaced (fins : List (List Char)) :
    trim ((fins.map (fun t => ' ' :: t)).flatten) = trim (spaceJoin fins) := by
  cases fins with
  | nil => rfl
  | cons f rest =>
    rw [spaceJoin_shift]
    exact trim_cons_ws (by decide) _

theorem sttRun_cons (cur : List Char) (m : STTMsg) (ms : List STTMsg) :
    sttRun cur (m :: ms) =
      match (sttStep cur m).2 with
      | none => sttRun (sttStep cur m).1 ms
      | some t => t :: sttRun (sttStep cur m).1 ms := by
  rw [sttRun]
  rcases h : sttStep cur m with ⟨c, o⟩
  cases o <;> simp

theorem sttRun_amended (msgs : List STTMsg) :
    ∀ fins : List (List Char),
      sttRun ((fins.map (fun t => ' ' :: t)).flatten) msgs = amendedSTTRun fins msgs := by
  induction msgs with
  | nil => intro fins; rfl
  | cons m ms ih =>
    intro fins
    rw [sttRun_cons]
    cases m with
    | results transcript is_final =>
      cases is_final with
      | true =>
        by_cases ht : transcript = []
        · have hstep : sttStep ((fins.map (fun t => ' ' :: t)).flatten)
              (STTMsg.results transcript true) =
              ((fins.map (fun t => ' ' :: t)).flatten, none) := by
            simp [sttStep, ht]
          rw [hstep]
          simp only [amendedSTTRun, ht, ne_eq, not_true_eq_false, if_false]
          exact ih fins
        · have hstep : sttStep ((fins.map (fun t => ' ' :: t)).flatten)
              (STTMsg.results transcript true) =
              (((fins ++ [transcript]).map (fun t => ' ' :: t)).flatten, none) := by
            simp [sttStep, ht]
          rw [hstep]
          simp only [amendedSTTRun, ht, ne_eq, not_false_eq_true, if_true]
          exact ih (fins ++ [transcript])
      | false =>
        have hstep : sttStep ((fins.map (fun t => ' ' :: t)).flatten)
            (STTMsg.results transcript false) =
            ((fins.map (fun t => ' ' :: t)).flatten, none) := by
          simp [sttStep]
        rw [hstep]
        exact ih fins
    | utteranceEnd =>
      have htr := trim_flatten_spaced fins
      have hrun : sttRun [] ms = amendedSTTRun [] ms := ih []
      by_cases h : trim (spaceJoin fins) = []
      · have hstep : sttStep ((fins.map (fun t => ' ' :: t)).flatten)
            STTMsg.utteranceEnd = ([], none) := by
          simp [sttStep, htr, h]
        rw [hstep]
        simp only [amendedSTTRun, h, if_true]
        exact hrun
      · have hstep : sttStep ((fins.map (fun t => ' ' :: t)).flatten)
            STTMsg.utteranceEnd = ([], some (trim (spaceJoin fins))) := by
          simp [sttStep, htr, h]
        rw [hstep]
        simp only [amendedSTTRun, h, if_false]
        rw [hrun]
    | other =>
      have hstep : sttStep ((fins.map (fun t => ' ' :: t)).flatten)
          STTMsg.other = ((fins.map (fun t => ' ' :: t)).flatten, none) := rfl
      rw [hstep]
      exact ih fins

/-- C5 amended: the recognizer delivers at most one callback per
utterance-boundary signal — exactly one when at least one nonempty final
transcript accumulated since the previous boundary, none otherwise — with
text equal to the trimmed single-space-separated join of the nonempty final
transcripts, in order; interim results are never delivered, and the buffer
is cleared at every boundary. -/
theorem utterance_delivery_amended (msgs : List STTMsg) :
    sttDelivered msgs = amendedSTTDelivered msgs
  ∧ ∀ cur, (sttStep cur STTMsg.utteranceEnd).1 = [] :=
  ⟨sttRun_amended msgs [], fun _ => rfl⟩

theorem missing_registration_fallback_witness :
    (media_stream_start happyPathReg "missing".data).1 = defaultSpec
  ∧ session_opening (media_stream_start happyPathReg "missing".data).1 =
      some "Hi there, this is Alex calling from our office. Do you have a quick moment?".data :=
  missing_registration_fallback happyPathReg "missing".data (by decide)

end PhoneAgent
